import Mathlib

/-! Verification of the hedge-fund risk-analysis pipeline.

Shallow embedding of the data-transformation pipeline of `analyze_risk.py`:
asset log-returns from prices (pandas pivot/shift/dropna), quantity-weighted
portfolio returns (merge + groupby), the no-intercept factor regression,
historical VaR / Expected Shortfall, the per-fund orchestrator loop, and the
cumulative-return curve of the report renderer.

Numeric values carried by the tables are modelled as exact rationals `ℚ`
(the pipeline's float arithmetic idealized, as the spec's arithmetic is);
transcendental results (`np.log`, `np.exp`) live in `ℝ`.  NaN/±inf results
of a float division by zero are modelled by the explicit value type `FVal`.
Dates and identifiers are modelled as naturals: the code's ISO date strings
are ordered lexicographically, which is order-isomorphic to their order as
numbers, and only the order and equality of dates matter to the pipeline.
-/

namespace HedgeRisk

abbrev Date := ℕ
abbrev Asset := ℕ

/-! ## Tail Risk Estimator: `compute_var_es` (analyze_risk.py lines 120-147) -/

/-- Ascending sort of a sample, as `np.quantile` sorts it internally. -/
def sortedAsc (r : List ℚ) : List ℚ :=
  List.insertionSort (· ≤ ·) r

/-- `np.quantile(r, p)` with the default linear interpolation, modelled from
the numpy documentation (library function, not part of the repository):
on the ascending sorted sample `s` of size `n`, with `h = p * (n - 1)`,
`i = ⌊h⌋`, the result is `s[i] + (h - i) * (s[i+1] - s[i])`.
Out-of-range indices are read as `0`; they are never touched for
`0 ≤ p ≤ 1` on a non-empty sample. -/
def np_quantile (r : List ℚ) (p : ℚ) : ℚ :=
  let s := sortedAsc r
  let h : ℚ := p * ((s.length : ℚ) - 1)
  let i : ℕ := (Int.floor h).toNat
  s.getD i 0 + (h - (i : ℚ)) * (s.getD (i + 1) 0 - s.getD i 0)

/-- `compute_var_es` (lines 140-147): VaR is the negative of the
`1 - confidence` quantile; the tail is the observations **strictly** below
that threshold; ES is the negative of the tail mean when the tail is
non-empty, and the NaN sentinel (`none`) otherwise. -/
def compute_var_es (r : List ℚ) (confidence : ℚ) : ℚ × Option ℚ :=
  let var_threshold := np_quantile r (1 - confidence)
  let tail_losses := r.filter (fun x => decide (x < var_threshold))
  (-var_threshold,
    if tail_losses.length = 0 then none
    else some (-(tail_losses.sum / (tail_losses.length : ℚ))))

/-- The 10-point series of the spec's VaR quantile scenario. -/
def ex10 : List ℚ :=
  [-5/100, -3/100, -1/100, 1/100, 2/100, 3/100, 4/100, 5/100, 6/100, 7/100]

/-! ## Portfolio Aggregator: `build_portfolio_returns` (lines 55-84) -/

/-- A long-form asset-return row (`date`, `asset`, `return`) as consumed by
`build_portfolio_returns`. -/
structure RetRow where
  date : Date
  asset : Asset
  ret : ℚ
deriving DecidableEq

/-- A positions row (`fund_id`, `asset`, `quantity`).  Quantities are REAL
in the schema and may be zero or negative. -/
structure PosRow where
  fund_id : ℕ
  asset : Asset
  quantity : ℚ
deriving DecidableEq

/-- Result of a float division: numpy's `x / 0` yields `nan` when `x = 0`,
`±inf` otherwise, and never raises. Finite values are exact rationals. -/
inductive FVal where
  | finite (x : ℚ)
  | posInf
  | negInf
  | nan
deriving DecidableEq

/-- Division as numpy performs it on the group sums: an IEEE-style total
function instead of a partial one. -/
def fdiv (x y : ℚ) : FVal :=
  if y = 0 then (if x = 0 then .nan else if 0 < x then .posInf else .negInf)
  else .finite (x / y)

/-- `returns.merge(positions, on='asset', how='inner')` (line 73): every
pair of a return row and a position row that agree on the asset. -/
def mergedRows (returns : List RetRow) (positions : List PosRow) :
    List (RetRow × PosRow) :=
  returns.flatMap (fun r =>
    (positions.filter (fun p => p.asset == r.asset)).map (fun p => (r, p)))

/-- Lexicographic order on the `(date, fund_id)` group keys, as pandas
`groupby` sorts them. -/
def keyLe (k1 k2 : Date × ℕ) : Prop :=
  k1.1 < k2.1 ∨ (k1.1 = k2.1 ∧ k1.2 ≤ k2.2)

instance : DecidableRel keyLe := fun k1 k2 => by
  unfold keyLe; infer_instance

/-- The distinct `(date, fund_id)` keys of the merged table, in the sorted
order pandas `groupby(['date', 'fund_id'])` produces. -/
def groupKeys (returns : List RetRow) (positions : List PosRow) :
    List (Date × ℕ) :=
  List.insertionSort keyLe
    ((mergedRows returns positions).map (fun m => (m.1.date, m.2.fund_id))).dedup

/-- `df['weighted_return'].sum()` over one `(date, fund_id)` group
(lines 76-80). -/
def groupWSum (returns : List RetRow) (positions : List PosRow)
    (k : Date × ℕ) : ℚ :=
  (((mergedRows returns positions).filter
      (fun m => m.1.date == k.1 && m.2.fund_id == k.2)).map
    (fun m => m.1.ret * m.2.quantity)).sum

/-- `df['quantity'].sum()` over one `(date, fund_id)` group (line 80). -/
def groupQSum (returns : List RetRow) (positions : List PosRow)
    (k : Date × ℕ) : ℚ :=
  (((mergedRows returns positions).filter
      (fun m => m.1.date == k.1 && m.2.fund_id == k.2)).map
    (fun m => m.2.quantity)).sum

/-- `build_portfolio_returns` (lines 55-84): inner-join returns with
positions on asset, then for each `(date, fund_id)` group divide the sum of
`return * quantity` by the sum of `quantity`. -/
def build_portfolio_returns (returns : List RetRow) (positions : List PosRow) :
    List (Date × ℕ × FVal) :=
  (groupKeys returns positions).map
    (fun k => (k.1, k.2,
      fdiv (groupWSum returns positions k) (groupQSum returns positions k)))

/-- The weighted sum of a `(date, fund)` group written directly as a double
sum over the two input tables (join-free): `Σ_r Σ_p [r.asset = p.asset ∧
r.date = d ∧ p.fund_id = f] * r.ret * p.quantity`. -/
def specWSum (returns : List RetRow) (positions : List PosRow)
    (d : Date) (f : ℕ) : ℚ :=
  (returns.map (fun r =>
    (positions.map (fun p =>
      if r.asset = p.asset ∧ r.date = d ∧ p.fund_id = f
      then r.ret * p.quantity else 0)).sum)).sum

/-- The quantity sum of a `(date, fund)` group written directly as a double
sum over the two input tables (join-free). -/
def specQSum (returns : List RetRow) (positions : List PosRow)
    (d : Date) (f : ℕ) : ℚ :=
  (returns.map (fun r =>
    (positions.map (fun p =>
      if r.asset = p.asset ∧ r.date = d ∧ p.fund_id = f
      then p.quantity else 0)).sum)).sum

/-- A constant return series: every observation ties with the quantile
threshold, so the strict tail is empty. -/
def exConst : List ℚ := [1/10, 1/10, 1/10]

/-- The spec's portfolio-weighting scenario: one fund (id 7) holding asset
10 (return 0.02, qty 100) and asset 20 (return -0.01, qty 300) on date 1. -/
def exRet2 : List RetRow := [⟨1, 10, 2/100⟩, ⟨1, 20, -1/100⟩]

/-- Positions for the portfolio-weighting scenario. -/
def exPos2 : List PosRow := [⟨7, 10, 100⟩, ⟨7, 20, 300⟩]

/-- A long/short book whose quantities cancel: qty 100 and -100. -/
def exPos8 : List PosRow := [⟨7, 10, 100⟩, ⟨7, 20, -100⟩]

/-- Returns for the cancelled book: weighted contributions 2 and -1, so the
group's weighted sum is 1 while its quantity sum is 0. -/
def exRet8 : List RetRow := [⟨1, 10, 2/100⟩, ⟨1, 20, 1/100⟩]

/-- A single holding with zero quantity: both group sums are zero. -/
def exPos8b : List PosRow := [⟨7, 10, 0⟩]

/-- Return table for the zero-quantity holding. -/
def exRet8b : List RetRow := [⟨1, 10, 2/100⟩]

/-! ## Factor Exposure Estimator: `estimate_factor_exposures` (lines 87-117)

The design matrix `X` is exactly the five factor columns `mkt_rf, smb, hml,
rmw, cma` (line 109) — no intercept column is appended.  `np.linalg.lstsq`
is a library solver, modelled by its documented characterization: it returns
a minimizer of `‖Xb - y‖²` (unique when `X` has full column rank, as in the
scenario proved below).  `alpha` is then the mean of the residuals
`y - Xβ` (lines 114-116), not a regression coefficient. -/

/-- The residual vector `y - Xβ` of the no-intercept design (line 115). -/
def residualVec {m : ℕ} (X : Fin m → Fin 5 → ℚ) (y : Fin m → ℚ)
    (beta : Fin 5 → ℚ) : Fin m → ℚ :=
  fun i => y i - ∑ j, X i j * beta j

/-- The squared error `‖Xβ - y‖²` that least squares minimizes. -/
def sqError {m : ℕ} (X : Fin m → Fin 5 → ℚ) (y : Fin m → ℚ)
    (beta : Fin 5 → ℚ) : ℚ :=
  ∑ i, (residualVec X y beta i) ^ 2

/-- `np.linalg.lstsq(X, y)` (numpy library function, modelled from its
documentation): the returned coefficient vector minimizes `‖Xb - y‖²`. -/
def IsLstsqSol {m : ℕ} (X : Fin m → Fin 5 → ℚ) (y : Fin m → ℚ)
    (beta : Fin 5 → ℚ) : Prop :=
  ∀ b, sqError X y beta ≤ sqError X y b

/-- `estimate_factor_exposures` (lines 108-117), relationally: the betas are
a least-squares solution over the bare five factor columns (no intercept),
and alpha is the mean residual computed afterwards. -/
def estimate_factor_exposures {m : ℕ} (X : Fin m → Fin 5 → ℚ) (y : Fin m → ℚ)
    (beta : Fin 5 → ℚ) (alpha : ℚ) : Prop :=
  IsLstsqSol X y beta ∧ alpha = (∑ i, residualVec X y beta i) / (m : ℚ)

/-- Synthetic design of the recovery scenario: five pairwise-orthogonal
factor columns over five dates (the standard basis); column 0 is mkt_rf. -/
def Xsynth : Fin 5 → Fin 5 → ℚ := fun i j => if i.val = j.val then 1 else 0

/-- Synthetic excess returns `y = 0.5 * mkt_rf` with zero noise. -/
def ysynth : Fin 5 → ℚ := fun i => if i.val = 0 then 1/2 else 0

/-- The betas the scenario should recover: 0.5 on mkt_rf, 0 elsewhere. -/
def betaSynth : Fin 5 → ℚ := fun j => if j.val = 0 then 1/2 else 0

/-! ## Orchestrator per-fund loop: `main` (lines 217-287) -/

/-- A factor-returns row after the date harmonization of line 231: the date
(normalized to the portfolio-return calendar) plus the five factors and the
risk-free rate, in percent units as stored. -/
structure FactorRow where
  date : Date
  mkt_rf : ℚ
  smb : ℚ
  hml : ℚ
  rmw : ℚ
  cma : ℚ
  rf : ℚ
deriving DecidableEq

/-- One record of `summary_records` (lines 265-276). -/
structure SummaryRow where
  fund_id : ℕ
  fund_name : String
  alpha : ℚ
  betas : Fin 5 → ℚ
  var : ℚ
  es : Option ℚ

/-- `portfolio_returns[portfolio_returns['fund_id'] == fund_id]` (line 249);
portfolio-return rows are `(date, fund_id, portfolio_return)` triples with
finite returns modelled as exact rationals. -/
def fundReturnRows (pr : List (Date × ℕ × ℚ)) (f : ℕ) : List (Date × ℕ × ℚ) :=
  pr.filter (fun x => x.2.1 == f)

/-- `fund_ret.merge(factor_df, on='date', how='inner')` (line 251). -/
def joinFactors (fundRet : List (Date × ℕ × ℚ)) (factors : List FactorRow) :
    List ((Date × ℕ × ℚ) × FactorRow) :=
  fundRet.flatMap (fun x =>
    (factors.filter (fun g => g.date == x.1)).map (fun g => (x, g)))

/-- The excess-return response and percent-to-decimal conversion of lines
256-259: response `portfolio_return - rf/100`, regressors the five factor
columns each divided by 100. -/
def regressionInput (merged : List ((Date × ℕ × ℚ) × FactorRow)) :
    List (ℚ × (Fin 5 → ℚ)) :=
  merged.map (fun xg =>
    (xg.1.2.2 - xg.2.rf / 100,
     fun j =>
       (if j.val = 0 then xg.2.mkt_rf
        else if j.val = 1 then xg.2.smb
        else if j.val = 2 then xg.2.hml
        else if j.val = 3 then xg.2.rmw
        else xg.2.cma) / 100))

/-- The orchestrator's per-fund loop (lines 245-286).  `regress` stands for
the `estimate_factor_exposures` solver call on the prepared regression
input; its output feeds the summary row but never the control flow.  For
each listed fund the loop filters that fund's portfolio returns, inner-joins
the factor rows on date, skips the fund (appending nothing) when the join is
empty, and otherwise appends exactly one summary row carrying the regression
outputs and the VaR/ES of the fund's non-excess returns at the default 95%
confidence. -/
def main_summary (funds : List (ℕ × String)) (pr : List (Date × ℕ × ℚ))
    (factors : List FactorRow)
    (regress : List (ℚ × (Fin 5 → ℚ)) → (Fin 5 → ℚ) × ℚ) : List SummaryRow :=
  funds.flatMap (fun fd =>
    let fund_ret := fundReturnRows pr fd.1
    let merged := joinFactors fund_ret factors
    if merged.isEmpty then []
    else
      let ba := regress (regressionInput merged)
      let ve := compute_var_es (fund_ret.map (fun x => x.2.2)) (19/20)
      [⟨fd.1, fd.2, ba.2, ba.1, ve.1, ve.2⟩])

/-- Funds table of the missing-overlap scenario. -/
def funds7 : List (ℕ × String) := [(1, "Fund A"), (2, "Fund B")]

/-- Portfolio returns of the missing-overlap scenario: fund 1 only has date
10, fund 2 only date 20. -/
def pr7 : List (Date × ℕ × ℚ) := [(10, 1, 1/100), (20, 2, 2/100)]

/-- Factor table of the missing-overlap scenario: only date 20 is present,
so fund 1 has no overlap and fund 2 does. -/
def factors7 : List FactorRow := [⟨20, 0, 0, 0, 0, 0, 0⟩]

/-- A trivial stand-in solver for the concrete scenario. -/
def regress0 : List (ℚ × (Fin 5 → ℚ)) → (Fin 5 → ℚ) × ℚ :=
  fun _ => (fun _ => 0, 0)

/-! ## Report Renderer: `plot_cumulative_returns` (lines 150-166) -/

/-- The fund's portfolio-return values sorted ascending by date (lines
155-157); the stable insertion sort matches pandas `sort_values('date')`. -/
def fundSortedRets (pr : List (Date × ℕ × ℚ)) (f : ℕ) : List ℚ :=
  (List.insertionSort (fun a b : Date × ℕ × ℚ => a.1 ≤ b.1)
    (pr.filter (fun x => x.2.1 == f))).map (fun x => x.2.2)

/-- `np.cumsum`: the running prefix sums, one per element. -/
def cumsum (l : List ℚ) : List ℚ := (l.scanl (· + ·) 0).tail

/-- The rendered cumulative-return curve (line 158):
`np.exp(fund_data['portfolio_return'].cumsum()) - 1`, one point per date of
the fund's sorted series. -/
noncomputable def plot_cumulative_curve (pr : List (Date × ℕ × ℚ)) (f : ℕ) :
    List ℝ :=
  (cumsum (fundSortedRets pr f)).map (fun s : ℚ => Real.exp (s : ℝ) - 1)

/-- The curve the claim describes, from the spec's words: at each index of
the fund's date-sorted series, the cumulative product of `(1 + r_j)` over
the prefix, minus one. -/
noncomputable def claimed_cumulative_curve (pr : List (Date × ℕ × ℚ)) (f : ℕ) :
    List ℝ :=
  (List.range (fundSortedRets pr f).length).map (fun i =>
    (((fundSortedRets pr f).take (i + 1)).map (fun r : ℚ => 1 + (r : ℝ))).prod - 1)

/-- A one-point return series with r = 1, where exp-compounding
(`e - 1 ≈ 1.718`) and `(1+r)`-compounding (exactly 1) differ. -/
def pr9 : List (Date × ℕ × ℚ) := [(0, 1, 1)]

/-! ## Return Calculator: `compute_asset_returns` (lines 28-52)

The pandas pipeline pivots prices to a wide date×asset table, sorts the
index, divides by the one-row shift, takes the log, drops every row that
contains any NaN, and melts back to long form.  The embedding keeps the
price pairs explicit and applies `Real.log` last, so everything below the
logarithm is computable. -/

/-- A price observation (`date`, `asset`, `adj_close`). -/
structure PriceRow where
  date : Date
  asset : Asset
  adj_close : ℚ
deriving DecidableEq

/-- The pivot's row index after `sort_index()` (lines 45-47): the distinct
dates of the table, ascending. -/
def pivotDates (prices : List PriceRow) : List Date :=
  List.insertionSort (· ≤ ·) ((prices.map (fun r => r.date)).dedup)

/-- The pivot's columns: the distinct assets of the table (pandas sorts the
column index ascending). -/
def pivotAssets (prices : List PriceRow) : List Asset :=
  List.insertionSort (· ≤ ·) ((prices.map (fun r => r.asset)).dedup)

/-- One cell of the wide table: the price of `a` on `d` when observed,
`none` (NaN) otherwise. -/
def priceAt (prices : List PriceRow) (d : Date) (a : Asset) : Option ℚ :=
  (prices.find? (fun r => r.date == d && r.asset == a)).map
    (fun r => r.adj_close)

/-- Whether the wide table has a value in cell `(d, a)`. -/
def hasPrice (prices : List PriceRow) (d : Date) (a : Asset) : Bool :=
  (priceAt prices d a).isSome

/-- Consecutive pairs of a list: `shift(1)` aligns each pivot row with its
predecessor row (line 49). -/
def consecPairs : List Date → List (Date × Date)
  | [] => []
  | [_] => []
  | d0 :: d1 :: rest => (d0, d1) :: consecPairs (d1 :: rest)

/-- The `(previous, current)` date pairs that survive `dropna()` (line 49):
a row is kept only when every asset column has a value both on the row's
date and on the immediately preceding date of the table. -/
def keptPairs (prices : List PriceRow) : List (Date × Date) :=
  (consecPairs (pivotDates prices)).filter
    (fun p => (pivotAssets prices).all
      (fun a => hasPrice prices p.1 a && hasPrice prices p.2 a))

/-- The melted long-form rows before the logarithm (line 51): for each asset
column and each kept row, the date with the (previous, current) price pair. -/
def returnRowsQ (prices : List PriceRow) : List (Date × Asset × (ℚ × ℚ)) :=
  (pivotAssets prices).flatMap (fun a =>
    (keptPairs prices).map (fun p =>
      (p.2, a, ((priceAt prices p.1 a).getD 0, (priceAt prices p.2 a).getD 0))))

/-- `compute_asset_returns` (lines 28-52): the long-form daily log returns
`ln(price[t] / price[t-1])`. -/
noncomputable def compute_asset_returns (prices : List PriceRow) :
    List (Date × Asset × ℝ) :=
  (returnRowsQ prices).map (fun r =>
    (r.1, r.2.1, Real.log ((r.2.2.2 : ℝ) / (r.2.2.1 : ℝ))))

/-- The dates on which asset `a` has a return in output `out`. -/
def outDates (out : List (Date × Asset × ℝ)) (a : Asset) : List Date :=
  (out.filter (fun r => r.2.1 == a)).map (fun r => r.1)

/-- The ascending distinct observation dates of one asset. -/
def assetDates (prices : List PriceRow) (a : Asset) : List Date :=
  List.insertionSort (· ≤ ·)
    (((prices.filter (fun r => r.asset == a)).map (fun r => r.date)).dedup)

/-- C1's counterexample table: asset 0 has three observations (dates 1, 2,
3); asset 1 is observed only on date 2, so both shifted rows of asset 1
carry a NaN and `dropna()` removes every row. -/
def exPrices1 : List PriceRow :=
  [⟨1, 0, 100⟩, ⟨2, 0, 110⟩, ⟨3, 0, 105⟩, ⟨2, 1, 50⟩]

/-- A rectangular price table: both assets observed on all three dates. -/
def exPricesRect : List PriceRow :=
  [⟨1, 0, 100⟩, ⟨2, 0, 110⟩, ⟨3, 0, 105⟩, ⟨1, 1, 50⟩, ⟨2, 1, 55⟩, ⟨3, 1, 60⟩]

end HedgeRisk

namespace HedgeRisk

/-- A filter inside a flatMap distributes to the generated blocks. -/
lemma filter_flatMap {α β : Type} (l : List α) (fn : α → List β) (q : β → Bool) :
    (l.flatMap fn).filter q = l.flatMap (fun x => (fn x).filter q) := by
  induction l with
  | nil => rfl
  | cons a l ih => simp [List.flatMap_cons, List.filter_append, ih]

/-- Summing a function over a flatMap is the sum of the per-block sums. -/
lemma sum_map_flatMap {α β : Type} (l : List α) (fn : α → List β) (g : β → ℚ) :
    ((l.flatMap fn).map g).sum = (l.map (fun x => ((fn x).map g).sum)).sum := by
  induction l with
  | nil => rfl
  | cons a l ih => simp [List.flatMap_cons, List.map_append, List.sum_append, ih]

/-- The inner per-return-row weighted-sum of the merged-and-filtered group
equals the direct sum over positions with an indicator. -/
lemma inner_group_sum (r : RetRow) (P : List PosRow) (d : Date) (f : ℕ)
    (g : RetRow → PosRow → ℚ) :
    (((((P.filter (fun p => p.asset == r.asset)).map (fun p => (r, p))).filter
        (fun m : RetRow × PosRow => m.1.date == d && m.2.fund_id == f)).map
      (fun m : RetRow × PosRow => g m.1 m.2)).sum)
    = (P.map (fun p =>
        if r.asset = p.asset ∧ r.date = d ∧ p.fund_id = f
        then g r p else 0)).sum := by
  induction P with
  | nil => rfl
  | cons p P ih =>
    simp only [List.filter_cons]
    by_cases h1 : p.asset = r.asset
    · by_cases h2 : r.date = d ∧ p.fund_id = f
      · simp [h1, h2.1, h2.2, ih, eq_comm]
      · rw [if_pos (by simpa using h1)]
        simp only [List.map_cons, List.filter_cons]
        rw [if_neg (by simpa using fun ha hb => h2 ⟨ha, hb⟩)]
        rw [ih]
        simp only [List.map_cons, List.sum_cons]
        rw [if_neg (by exact fun hc => h2 hc.2)]
        ring
    · rw [if_neg (by simpa using h1)]
      rw [ih]
      simp only [List.map_cons, List.sum_cons]
      rw [if_neg (by exact fun hc => h1 hc.1.symm)]
      ring

/-- The grouped weighted sum of the pandas pipeline equals the join-free
double sum. -/
lemma groupWSum_eq_spec (returns : List RetRow) (positions : List PosRow)
    (d : Date) (f : ℕ) :
    groupWSum returns positions (d, f) = specWSum returns positions d f := by
  induction returns with
  | nil => rfl
  | cons r rs ih =>
    simp only [groupWSum, mergedRows, List.flatMap_cons, List.filter_append,
      List.map_append, List.sum_append] at ih ⊢
    simp only [specWSum, List.map_cons, List.sum_cons] at ih ⊢
    rw [inner_group_sum r positions d f (fun a b => a.ret * b.quantity), ih]

/-- The grouped quantity sum of the pandas pipeline equals the join-free
double sum. -/
lemma groupQSum_eq_spec (returns : List RetRow) (positions : List PosRow)
    (d : Date) (f : ℕ) :
    groupQSum returns positions (d, f) = specQSum returns positions d f := by
  induction returns with
  | nil => rfl
  | cons r rs ih =>
    simp only [groupQSum, mergedRows, List.flatMap_cons, List.filter_append,
      List.map_append, List.sum_append] at ih ⊢
    simp only [specQSum, List.map_cons, List.sum_cons] at ih ⊢
    rw [inner_group_sum r positions d f (fun _ b => b.quantity), ih]

/-- A `(date, fund)` key of the merged table is a group key. -/
lemma mem_groupKeys_of_mem_merged {returns : List RetRow}
    {positions : List PosRow} {d : Date} {f : ℕ}
    (hk : (d, f) ∈ (mergedRows returns positions).map
      (fun m => (m.1.date, m.2.fund_id))) :
    (d, f) ∈ groupKeys returns positions := by
  rw [groupKeys, List.mem_insertionSort]
  exact List.mem_dedup.mpr hk

/-- The mean of a non-empty list all of whose entries are strictly below `t`
is itself strictly below `t` (stated via `sum < length * t`). -/
lemma sum_lt_length_mul {l : List ℚ} {t : ℚ} (hne : l ≠ [])
    (h : ∀ x ∈ l, x < t) : l.sum < (l.length : ℚ) * t := by
  induction l with
  | nil => exact absurd rfl hne
  | cons a l ih =>
    cases l with
    | nil => simpa using h a (by simp)
    | cons b m =>
      have h1 : a < t := h a (by simp)
      have h2 := ih (by simp) (fun x hx => h x (by simp [hx]))
      simp only [List.sum_cons, List.length_cons] at h2 ⊢
      push_cast at h2 ⊢
      linarith


/-- C3: for every return series and confidence level, the VaR returned by
`compute_var_es` is the negative of the empirical quantile of the series at
level `1 - confidence`, computed by linear interpolation on the ascending
sorted sample (the sorted sample being a permutation of the series); on the
spec's 10-point scenario at 95% confidence the interpolated 5th percentile is
`-41/1000` and the VaR is its negative, `41/1000`. -/
theorem C3_var_is_neg_interpolated_quantile :
    (∀ r c, (compute_var_es r c).1 = -(np_quantile r (1 - c)))
    ∧ (∀ r : List ℚ, (sortedAsc r).Perm r ∧ List.Sorted (· ≤ ·) (sortedAsc r))
    ∧ np_quantile ex10 (1 - 19/20) = -(41/1000)
    ∧ (compute_var_es ex10 (19/20)).1 = 41/1000 := by
  refine ⟨fun r c => rfl,
    fun r => ⟨List.perm_insertionSort _ _, List.sorted_insertionSort _ _⟩, ?_, ?_⟩
  · norm_num [np_quantile, sortedAsc, List.insertionSort, List.orderedInsert]
  · show -(np_quantile ex10 (1 - 19/20)) = 41/1000
    norm_num [np_quantile, sortedAsc, List.insertionSort, List.orderedInsert]

/-- C4: for every non-empty return series, ES is the negative of the mean of
exactly the observations strictly below the quantile threshold (ties at the
threshold are excluded by the strict filter), and when no observation lies
strictly below the threshold the result is the NaN sentinel `none` rather
than an error (the function is total). -/
theorem C4_es_strict_tail_or_nan (r : List ℚ) (c : ℚ) (hne : r ≠ []) :
    ((compute_var_es r c).2 = none ↔
      ∀ x ∈ r, ¬ x < np_quantile r (1 - c))
    ∧ (∀ e, (compute_var_es r c).2 = some e →
        (r.filter (fun x => decide (x < np_quantile r (1 - c)))) ≠ [] ∧
        e = -((r.filter (fun x => decide (x < np_quantile r (1 - c)))).sum /
              ((r.filter (fun x => decide (x < np_quantile r (1 - c)))).length : ℚ))) := by
  clear hne
  have hsnd : (compute_var_es r c).2
      = if (r.filter (fun x => decide (x < np_quantile r (1 - c)))).length = 0
        then none
        else some (-((r.filter (fun x => decide (x < np_quantile r (1 - c)))).sum /
              ((r.filter (fun x => decide (x < np_quantile r (1 - c)))).length : ℚ))) := rfl
  set t := np_quantile r (1 - c) with ht
  set tl := r.filter (fun x => decide (x < t)) with htl
  by_cases h0 : tl.length = 0
  · rw [hsnd, if_pos h0]
    have hnil : tl = [] := List.length_eq_zero.mp h0
    rw [htl] at hnil
    constructor
    · constructor
      · intro _ x hx hlt
        have hmem : x ∈ r.filter (fun x => decide (x < t)) :=
          List.mem_filter.mpr ⟨hx, by simpa using hlt⟩
        rw [hnil] at hmem
        exact List.not_mem_nil x hmem
      · intro _; rfl
    · intro e he; exact absurd he (by simp)
  · rw [hsnd, if_neg h0]
    refine ⟨⟨fun h => absurd h (by simp), fun hall => ?_⟩, fun e he => ?_⟩
    · exfalso; apply h0
      rw [htl, List.length_eq_zero, List.filter_eq_nil_iff]
      intro a ha; simpa using hall a ha
    · have he2 : -(tl.sum / (tl.length : ℚ)) = e := by
        exact Option.some.inj he
      refine ⟨fun hnil => h0 ?_, he2.symm⟩
      rw [htl, List.length_eq_zero]
      exact hnil

/-- C4 witness: on the constant series every observation ties with the
threshold, so the strict tail is empty and ES is the NaN sentinel. -/
theorem C4_witness : (compute_var_es exConst (19/20)).2 = none :=
  (C4_es_strict_tail_or_nan exConst (19/20) (by simp [exConst])).1.mpr (by
    norm_num [exConst, np_quantile, sortedAsc, List.insertionSort, List.orderedInsert])

/-- C6: whenever `compute_var_es` returns a defined (non-NaN) Expected
Shortfall, that ES is at least the returned VaR: the tail mean is strictly
below the quantile threshold, so its negative dominates the negated
threshold. -/
theorem C6_es_ge_var (r : List ℚ) (c : ℚ) (e : ℚ)
    (h : (compute_var_es r c).2 = some e) :
    (compute_var_es r c).1 ≤ e := by
  have hsnd : (compute_var_es r c).2
      = if (r.filter (fun x => decide (x < np_quantile r (1 - c)))).length = 0
        then none
        else some (-((r.filter (fun x => decide (x < np_quantile r (1 - c)))).sum /
              ((r.filter (fun x => decide (x < np_quantile r (1 - c)))).length : ℚ))) := rfl
  have hfst : (compute_var_es r c).1 = -(np_quantile r (1 - c)) := rfl
  rw [hsnd] at h
  rw [hfst]
  set t := np_quantile r (1 - c) with ht
  set tl := r.filter (fun x => decide (x < t)) with htl
  by_cases h0 : tl.length = 0
  · rw [if_pos h0] at h
    exact absurd h (by simp)
  · rw [if_neg h0] at h
    have he : -(tl.sum / (tl.length : ℚ)) = e := Option.some.inj h
    have hnil : tl ≠ [] := fun hn => h0 (by rw [hn]; rfl)
    have hall : ∀ x ∈ tl, x < t := by
      intro x hx
      rw [htl] at hx
      have := List.of_mem_filter hx
      simpa using this
    have hlen : (0 : ℚ) < (tl.length : ℚ) := by
      have : 0 < tl.length := Nat.pos_of_ne_zero h0
      exact_mod_cast this
    have hsum := sum_lt_length_mul hnil hall
    have hdiv : tl.sum / (tl.length : ℚ) < t := by
      rw [div_lt_iff₀ hlen]
      linarith [hsum]
    linarith [he]

/-- C6 witness: on the spec's 10-point series at 95% confidence the tail is
`[-1/20]`, ES is `1/20`, and indeed `VaR = 41/1000 ≤ 1/20`. -/
theorem C6_witness :
    (compute_var_es ex10 (19/20)).2 = some (1/20) ∧
    (compute_var_es ex10 (19/20)).1 ≤ 1/20 := by
  have h : (compute_var_es ex10 (19/20)).2 = some (1/20) := by
    norm_num [compute_var_es, np_quantile, sortedAsc, List.insertionSort,
      List.orderedInsert, List.filter]
  exact ⟨h, C6_es_ge_var ex10 (19/20) (1/20) h⟩

/-- C2: for every asset-returns table and positions table and every
`(date, fund)` group present after the inner join on asset, when the
group's quantities do not sum to zero, `build_portfolio_returns` contains
for that group the quantity-weighted average `Σ(return_i * quantity_i) /
Σ(quantity_i)` over exactly the matched (asset-equal) row pairs of that date
and fund, written as join-free double sums over the two input tables. -/
theorem C2_quantity_weighted_average (returns : List RetRow)
    (positions : List PosRow) (d : Date) (f : ℕ)
    (hk : (d, f) ∈ (mergedRows returns positions).map
      (fun m => (m.1.date, m.2.fund_id)))
    (hq : specQSum returns positions d f ≠ 0) :
    (d, f, FVal.finite (specWSum returns positions d f /
        specQSum returns positions d f))
      ∈ build_portfolio_returns returns positions := by
  have hval : fdiv (groupWSum returns positions (d, f))
      (groupQSum returns positions (d, f))
      = FVal.finite (specWSum returns positions d f /
          specQSum returns positions d f) := by
    rw [groupWSum_eq_spec, groupQSum_eq_spec, fdiv, if_neg hq]
  exact List.mem_map.mpr ⟨(d, f), mem_groupKeys_of_mem_merged hk, by rw [hval]⟩

/-- C2 witness: fund 7 holding asset 10 (return 0.02, qty 100) and asset 20
(return -0.01, qty 300) on date 1 gets portfolio return
`(0.02*100 - 0.01*300)/400 = -0.0025`. -/
theorem C2_witness :
    (1, 7, FVal.finite (-(1/400))) ∈ build_portfolio_returns exRet2 exPos2 := by
  have hw : specWSum exRet2 exPos2 1 7 = -1 := by
    norm_num [specWSum, exRet2, exPos2]
  have hqv : specQSum exRet2 exPos2 1 7 = 400 := by
    norm_num [specQSum, exRet2, exPos2]
  have hk : ((1 : Date), (7 : ℕ)) ∈ (mergedRows exRet2 exPos2).map
      (fun m => (m.1.date, m.2.fund_id)) := by
    decide
  have h := C2_quantity_weighted_average exRet2 exPos2 1 7 hk
    (by rw [hqv]; norm_num)
  rw [hw, hqv] at h
  have hv : (-1 : ℚ) / 400 = -(1/400) := by norm_num
  rw [hv] at h
  exact h

/-- C8 counterexample: a group whose quantities sum to zero but whose
weighted returns do not (long 100 / short 100 with different returns) is
reported as `+inf` by the float division, not as NaN — the claim that every
zero-total-quantity group yields NaN is false on the code. -/
theorem C8_counterexample :
    groupQSum exRet8 exPos8 (1, 7) = 0
    ∧ build_portfolio_returns exRet8 exPos8 = [(1, 7, FVal.posInf)]
    ∧ (1, 7, FVal.nan) ∉ build_portfolio_returns exRet8 exPos8 := by
  have hq : groupQSum exRet8 exPos8 (1, 7) = 0 := by
    norm_num [groupQSum, mergedRows, exRet8, exPos8]
  have hw : groupWSum exRet8 exPos8 (1, 7) = 1 := by
    norm_num [groupWSum, mergedRows, exRet8, exPos8]
  have hkeys : groupKeys exRet8 exPos8 = [(1, 7)] := by decide
  have hout : build_portfolio_returns exRet8 exPos8 = [(1, 7, FVal.posInf)] := by
    rw [build_portfolio_returns, hkeys, List.map_cons, List.map_nil, hq, hw]
    norm_num [fdiv]
  refine ⟨hq, hout, ?_⟩
  rw [hout]
  simp

/-- C8 amended: a `(date, fund)` group whose quantities sum to zero yields
NaN exactly when its weighted-return sum is also zero; otherwise it yields
`+inf`/`-inf` by the sign of the weighted sum.  In every case a value is
produced, never an exception (the embedding is a total function). -/
theorem C8_zero_quantity_group (returns : List RetRow) (positions : List PosRow)
    (d : Date) (f : ℕ)
    (hk : (d, f) ∈ (mergedRows returns positions).map
      (fun m => (m.1.date, m.2.fund_id)))
    (hq : specQSum returns positions d f = 0) :
    (d, f, if specWSum returns positions d f = 0 then FVal.nan
           else if 0 < specWSum returns positions d f then FVal.posInf
           else FVal.negInf)
      ∈ build_portfolio_returns returns positions := by
  have hval : fdiv (groupWSum returns positions (d, f))
      (groupQSum returns positions (d, f))
      = if specWSum returns positions d f = 0 then FVal.nan
        else if 0 < specWSum returns positions d f then FVal.posInf
        else FVal.negInf := by
    rw [groupWSum_eq_spec, groupQSum_eq_spec, fdiv, if_pos hq]
  exact List.mem_map.mpr ⟨(d, f), mem_groupKeys_of_mem_merged hk, by rw [hval]⟩

/-- C8 witness: the spec's own zero-quantity example — a fund whose only
present holding has zero quantity — yields the NaN sentinel. -/
theorem C8_witness :
    (1, 7, FVal.nan) ∈ build_portfolio_returns exRet8b exPos8b := by
  have hw : specWSum exRet8b exPos8b 1 7 = 0 := by
    norm_num [specWSum, exRet8b, exPos8b]
  have hqv : specQSum exRet8b exPos8b 1 7 = 0 := by
    norm_num [specQSum, exRet8b, exPos8b]
  have hk : ((1 : Date), (7 : ℕ)) ∈ (mergedRows exRet8b exPos8b).map
      (fun m => (m.1.date, m.2.fund_id)) := by
    decide
  have h := C8_zero_quantity_group exRet8b exPos8b 1 7 hk hqv
  rw [if_pos hw] at h
  exact h

/-- On the orthonormal synthetic design the residual of `b` at date `i` is
simply `y i - b i`. -/
lemma residual_synth (b : Fin 5 → ℚ) (i : Fin 5) :
    residualVec Xsynth ysynth b i = ysynth i - b i := by
  simp [residualVec, Xsynth, ite_mul, Fin.val_inj, Finset.sum_ite_eq]

/-- The target betas have zero residual everywhere on the synthetic data. -/
lemma residual_synth_target (i : Fin 5) :
    residualVec Xsynth ysynth betaSynth i = 0 := by
  rw [residual_synth]
  simp [ysynth, betaSynth]

/-- C5: `estimate_factor_exposures` runs ordinary least squares strictly
through the origin on the five factor columns and computes alpha afterwards
as the mean residual; on synthetic data `y = 0.5 * mkt_rf` with the factor
columns orthogonal and no noise, the estimator's outputs are exactly
`beta = (0.5, 0, 0, 0, 0)` and `alpha = 0`. -/
theorem C5_no_intercept_recovery (beta : Fin 5 → ℚ) (alpha : ℚ) :
    estimate_factor_exposures Xsynth ysynth beta alpha ↔
      (beta = betaSynth ∧ alpha = 0) := by
  have htarget : sqError Xsynth ysynth betaSynth = 0 := by
    unfold sqError
    exact Finset.sum_eq_zero (fun i _ => by rw [residual_synth_target]; ring)
  constructor
  · rintro ⟨hmin, halpha⟩
    have hle : sqError Xsynth ysynth beta ≤ 0 := htarget ▸ hmin betaSynth
    have hge : 0 ≤ sqError Xsynth ysynth beta :=
      Finset.sum_nonneg (fun i _ => sq_nonneg _)
    have hzero : sqError Xsynth ysynth beta = 0 := le_antisymm hle hge
    have hterms := (Finset.sum_eq_zero_iff_of_nonneg
      (fun i _ => sq_nonneg (residualVec Xsynth ysynth beta i))).mp hzero
    have hres : ∀ i, residualVec Xsynth ysynth beta i = 0 := by
      intro i
      have := hterms i (Finset.mem_univ i)
      exact pow_eq_zero_iff (n := 2) (by norm_num) |>.mp this
    have hbeta : beta = betaSynth := by
      funext j
      have := hres j
      rw [residual_synth] at this
      have heq : beta j = ysynth j := by linarith
      rw [heq]
      simp [ysynth, betaSynth]
    refine ⟨hbeta, ?_⟩
    rw [halpha, Finset.sum_congr rfl (fun i _ => hres i)]
    simp
  · rintro ⟨hbeta, halpha⟩
    subst hbeta
    refine ⟨fun b => ?_, ?_⟩
    · rw [htarget]
      exact Finset.sum_nonneg (fun i _ => sq_nonneg _)
    · rw [halpha, Finset.sum_congr rfl (fun i _ => residual_synth_target i)]
      simp

/-- C5 witness: the estimator relation holds at the recovered values. -/
theorem C5_witness : estimate_factor_exposures Xsynth ysynth betaSynth 0 :=
  (C5_no_intercept_recovery betaSynth 0).mpr ⟨rfl, rfl⟩

/-- The inner join on date is empty when no factor date matches any date of
the fund's return rows. -/
lemma joinFactors_eq_nil {fr : List (Date × ℕ × ℚ)} {factors : List FactorRow}
    (h : ∀ x ∈ fr, ∀ g ∈ factors, g.date ≠ x.1) :
    joinFactors fr factors = [] := by
  unfold joinFactors
  rw [List.flatMap_eq_nil_iff]
  intro x hx
  rw [List.map_eq_nil_iff, List.filter_eq_nil_iff]
  intro g hg
  simpa using h x hx g hg

/-- The inner join on date is inhabited as soon as one factor date matches a
date of the fund's return rows. -/
lemma joinFactors_ne_nil {fr : List (Date × ℕ × ℚ)} {factors : List FactorRow}
    {x : Date × ℕ × ℚ} {g : FactorRow} (hx : x ∈ fr) (hg : g ∈ factors)
    (hd : g.date = x.1) : joinFactors fr factors ≠ [] := by
  intro hnil
  have hmem : (x, g) ∈ joinFactors fr factors :=
    List.mem_flatMap.mpr ⟨x, hx,
      List.mem_map.mpr ⟨g, List.mem_filter.mpr ⟨hg, by simpa using hd⟩, rfl⟩⟩
  rw [hnil] at hmem
  exact List.not_mem_nil _ hmem

/-- C7: in the orchestrator's per-fund loop, a fund whose portfolio-return
dates share no date with the factor table contributes no row to the summary
output, and every listed fund that does share a date contributes its row —
the loop skips and continues rather than aborting. -/
theorem C7_missing_overlap_isolation (funds : List (ℕ × String))
    (pr : List (Date × ℕ × ℚ)) (factors : List FactorRow)
    (regress : List (ℚ × (Fin 5 → ℚ)) → (Fin 5 → ℚ) × ℚ) (f : ℕ) :
    ((∀ x ∈ pr, x.2.1 = f → ∀ g ∈ factors, g.date ≠ x.1) →
      f ∉ (main_summary funds pr factors regress).map (fun s => s.fund_id))
    ∧ (∀ name, (f, name) ∈ funds →
        (∃ x ∈ pr, x.2.1 = f ∧ ∃ g ∈ factors, g.date = x.1) →
        f ∈ (main_summary funds pr factors regress).map (fun s => s.fund_id)) := by
  constructor
  · intro hno
    induction funds with
    | nil => simp [main_summary]
    | cons fd fds ih =>
      simp only [main_summary, List.flatMap_cons, List.map_append,
        List.mem_append] at ih ⊢
      rintro (hhead | htail)
      · by_cases hfd : fd.1 = f
        · have hnil : joinFactors (fundReturnRows pr fd.1) factors = [] := by
            apply joinFactors_eq_nil
            intro x hx
            have hxf : x.2.1 = f := by
              have := List.of_mem_filter hx
              simpa [hfd] using this
            exact hno x (List.mem_of_mem_filter hx) hxf
          rw [hnil] at hhead
          simpa using hhead
        · by_cases hnil : joinFactors (fundReturnRows pr fd.1) factors = []
          · rw [hnil] at hhead
            simpa using hhead
          · rw [if_neg (by simpa [List.isEmpty_iff] using hnil)] at hhead
            simp only [List.map_cons, List.map_nil, List.mem_singleton] at hhead
            exact hfd hhead.symm
      · exact ih htail
  · intro name hmem hov
    induction funds with
    | nil => exact absurd hmem (List.not_mem_nil _)
    | cons fd fds ih =>
      simp only [main_summary, List.flatMap_cons, List.map_append,
        List.mem_append] at ih ⊢
      rcases List.mem_cons.mp hmem with hhead | htail
      · left
        obtain ⟨x, hx, hxf, g, hg, hd⟩ := hov
        have hf1 : fd.1 = f := by rw [← hhead]
        have hxfr : x ∈ fundReturnRows pr fd.1 :=
          List.mem_filter.mpr ⟨hx, by simp [hf1, hxf]⟩
        have hne := joinFactors_ne_nil hxfr hg hd
        rw [if_neg (by simpa [List.isEmpty_iff] using hne)]
        simp [hf1]
      · right
        exact ih htail

/-- C7 witness: with factor data only on date 20, fund 1 (returns on date
10 only) contributes no summary row while fund 2 (returns on date 20) does. -/
theorem C7_witness :
    1 ∉ (main_summary funds7 pr7 factors7 regress0).map (fun s => s.fund_id)
    ∧ 2 ∈ (main_summary funds7 pr7 factors7 regress0).map (fun s => s.fund_id) :=
  ⟨(C7_missing_overlap_isolation funds7 pr7 factors7 regress0 1).1 (by decide),
   (C7_missing_overlap_isolation funds7 pr7 factors7 regress0 2).2 "Fund B"
     (by decide) (by decide)⟩

/-- A scanl of addition lists `c` plus each prefix sum. -/
lemma scanl_add_eq (c : ℚ) (l : List ℚ) :
    l.scanl (· + ·) c
      = (List.range (l.length + 1)).map (fun i => c + (l.take i).sum) := by
  induction l generalizing c with
  | nil => simp
  | cons a l ih =>
    rw [List.scanl_cons, ih (c + a)]
    have hlen : (a :: l).length + 1 = l.length + 1 + 1 := rfl
    rw [hlen]
    conv_rhs => rw [List.range_succ_eq_map, List.map_cons, List.map_map]
    rw [List.singleton_append]
    simp only [List.take_zero, List.sum_nil, add_zero]
    congr 1
    apply List.map_congr_left
    intro i _
    simp only [Function.comp_apply, List.take_succ_cons, List.sum_cons]
    ring

/-- `cumsum` computes the inclusive prefix sums. -/
lemma cumsum_eq (l : List ℚ) :
    cumsum l = (List.range l.length).map (fun i => (l.take (i + 1)).sum) := by
  rw [cumsum, scanl_add_eq, List.range_succ_eq_map]
  simp [List.map_map, Function.comp]

/-- exp of a list sum is the product of the pointwise exps. -/
lemma exp_list_sum (l : List ℚ) :
    Real.exp ((l.sum : ℚ) : ℝ) = (l.map (fun r : ℚ => Real.exp (r : ℝ))).prod := by
  induction l with
  | nil => simp
  | cons a l ih =>
    rw [List.sum_cons, List.map_cons, List.prod_cons, ← ih]
    push_cast
    rw [Real.exp_add]

/-- C9 counterexample: for the one-point series with return 1, the rendered
curve point is `e - 1` while the claimed cumulative-product-of-(1+r) curve
gives exactly 1; since `e ≠ 2` the curves differ. -/
theorem C9_counterexample :
    plot_cumulative_curve pr9 1 ≠ claimed_cumulative_curve pr9 1 := by
  have hs : fundSortedRets pr9 1 = [1] := by
    norm_num [fundSortedRets, pr9, List.insertionSort, List.orderedInsert]
  have hc : cumsum (fundSortedRets pr9 1) = [1] := by
    rw [hs]
    norm_num [cumsum, List.scanl_cons]
  have hp : plot_cumulative_curve pr9 1 = [Real.exp 1 - 1] := by
    rw [plot_cumulative_curve, hc]
    norm_num
  have hcl : claimed_cumulative_curve pr9 1 = [1] := by
    rw [claimed_cumulative_curve, hs]
    norm_num
  rw [hp, hcl]
  intro h
  have h1 : Real.exp 1 - 1 = 1 := List.head_eq_of_cons_eq h
  have h2 : (2.7182818283 : ℝ) < Real.exp 1 := Real.exp_one_gt_d9
  nlinarith

/-- C9 amended: the rendered curve equals, at each index of the fund's
date-sorted series, the cumulative product of `exp(r_j)` over the prefix
minus one — exponential compounding of log returns (equivalently
`exp(Σ r_j) - 1`), not the product of `(1 + r_j)` minus one. -/
theorem C9_exp_compounded_curve (pr : List (Date × ℕ × ℚ)) (f : ℕ) :
    plot_cumulative_curve pr f
      = (List.range (fundSortedRets pr f).length).map (fun i =>
          (((fundSortedRets pr f).take (i + 1)).map
            (fun r : ℚ => Real.exp (r : ℝ))).prod - 1) := by
  rw [plot_cumulative_curve, cumsum_eq, List.map_map]
  apply List.map_congr_left
  intro i _
  simp only [Function.comp]
  rw [exp_list_sum]

/-- The per-asset output dates can be read off the pre-logarithm rows. -/
lemma outDates_eq (prices : List PriceRow) (a : Asset) :
    outDates (compute_asset_returns prices) a
      = ((returnRowsQ prices).filter (fun r => r.2.1 == a)).map
          (fun r => r.1) := by
  unfold outDates compute_asset_returns
  rw [List.filter_map, List.map_map]
  rfl

/-- A date is a pivot row exactly when some price row carries it. -/
lemma mem_pivotDates {prices : List PriceRow} {d : Date} :
    d ∈ pivotDates prices ↔ ∃ r ∈ prices, r.date = d := by
  simp [pivotDates, List.mem_insertionSort, List.mem_dedup, List.mem_map]

/-- An asset is a pivot column exactly when some price row carries it. -/
lemma mem_pivotAssets {prices : List PriceRow} {a : Asset} :
    a ∈ pivotAssets prices ↔ ∃ r ∈ prices, r.asset = a := by
  simp [pivotAssets, List.mem_insertionSort, List.mem_dedup, List.mem_map]

/-- The pivot columns are distinct. -/
lemma pivotAssets_nodup (prices : List PriceRow) :
    (pivotAssets prices).Nodup :=
  ((List.perm_insertionSort _ _).nodup_iff).mpr (List.nodup_dedup _)

/-- The pivot rows are distinct. -/
lemma pivotDates_nodup (prices : List PriceRow) :
    (pivotDates prices).Nodup :=
  ((List.perm_insertionSort _ _).nodup_iff).mpr (List.nodup_dedup _)

/-- The pivot row index is strictly increasing. -/
lemma pivotDates_pairwise_lt (prices : List PriceRow) :
    List.Pairwise (· < ·) (pivotDates prices) := by
  have hs : List.Pairwise (· ≤ ·) (pivotDates prices) :=
    List.sorted_insertionSort _ _
  have hn : List.Pairwise (· ≠ ·) (pivotDates prices) := pivotDates_nodup prices
  exact (hs.and hn).imp (fun h => lt_of_le_of_ne h.1 h.2)

/-- Filtering a concatenation of per-asset blocks on one asset keeps
exactly that asset's block. -/
lemma filter_flatMap_blocks {as : List Asset} (hnd : as.Nodup) {a : Asset}
    (ha : a ∈ as) (blk : Asset → List (Date × Asset × (ℚ × ℚ)))
    (hblk : ∀ a2, ∀ x ∈ blk a2, x.2.1 = a2) :
    (as.flatMap blk).filter (fun r => r.2.1 == a) = blk a := by
  induction as with
  | nil => cases ha
  | cons b bs ih =>
    rw [List.flatMap_cons, List.filter_append]
    rcases List.mem_cons.mp ha with rfl | hmem
    · have h1 : (blk a).filter (fun r => r.2.1 == a) = blk a :=
        List.filter_eq_self.mpr (fun x hx => by simp [hblk a x hx])
      have h2 : (bs.flatMap blk).filter (fun r => r.2.1 == a) = [] := by
        rw [List.filter_eq_nil_iff]
        intro x hx
        obtain ⟨a2, ha2, hxa⟩ := List.mem_flatMap.mp hx
        have hne : a2 ≠ a := fun he => (List.nodup_cons.mp hnd).1 (he ▸ ha2)
        simp [hblk a2 x hxa, hne]
      rw [h1, h2, List.append_nil]
    · have hne : b ≠ a := fun he => (List.nodup_cons.mp hnd).1 (he ▸ hmem)
      have h1 : (blk b).filter (fun r => r.2.1 == a) = [] := by
        rw [List.filter_eq_nil_iff]
        intro x hx
        simp [hblk b x hx, hne]
      rw [h1, List.nil_append]
      exact ih (List.nodup_cons.mp hnd).2 hmem

/-- Extracting one asset's rows from the pre-logarithm output. -/
lemma returnRowsQ_filter (prices : List PriceRow) {a : Asset}
    (ha : a ∈ pivotAssets prices) :
    (returnRowsQ prices).filter (fun r => r.2.1 == a)
      = (keptPairs prices).map (fun p =>
          (p.2, a, ((priceAt prices p.1 a).getD 0,
                    (priceAt prices p.2 a).getD 0))) := by
  unfold returnRowsQ
  apply filter_flatMap_blocks (pivotAssets_nodup prices) ha
  intro a2 x hx
  obtain ⟨p, _, rfl⟩ := List.mem_map.mp hx
  rfl

/-- For any pivot column, the output dates are the kept rows' dates. -/
lemma outDates_eq_kept (prices : List PriceRow) {a : Asset}
    (ha : a ∈ pivotAssets prices) :
    outDates (compute_asset_returns prices) a
      = (keptPairs prices).map (fun p => p.2) := by
  rw [outDates_eq, returnRowsQ_filter prices ha, List.map_map]
  rfl

/-- Every output row's asset is a pivot column. -/
lemma out_asset_mem {prices : List PriceRow} {r : Date × Asset × ℝ}
    (hr : r ∈ compute_asset_returns prices) : r.2.1 ∈ pivotAssets prices := by
  unfold compute_asset_returns at hr
  obtain ⟨x, hx, rfl⟩ := List.mem_map.mp hr
  unfold returnRowsQ at hx
  obtain ⟨a2, ha2, hxa⟩ := List.mem_flatMap.mp hx
  obtain ⟨p, _, rfl⟩ := List.mem_map.mp hxa
  exact ha2

/-- A consecutive pair splits its list around itself. -/
lemma exists_decomp_of_mem_consecPairs {l : List Date} {x y : Date}
    (h : (x, y) ∈ consecPairs l) : ∃ l1 l2, l = l1 ++ x :: y :: l2 := by
  induction l with
  | nil => cases h
  | cons d0 rest ih =>
    cases rest with
    | nil => cases h
    | cons d1 rest2 =>
      rw [consecPairs] at h
      rcases List.mem_cons.mp h with heq | hmem
      · obtain ⟨h1, h2⟩ := Prod.mk.injEq .. ▸ heq
        exact ⟨[], rest2, by rw [← h1, ← h2]; rfl⟩
      · obtain ⟨l1, l2, hde⟩ := ih hmem
        exact ⟨d0 :: l1, l2, by rw [List.cons_append, ← hde]⟩

/-- The second components of the consecutive pairs are the list's tail. -/
lemma consecPairs_map_snd (l : List Date) :
    (consecPairs l).map (fun p => p.2) = l.tail := by
  induction l with
  | nil => rfl
  | cons d0 rest ih =>
    cases rest with
    | nil => rfl
    | cons d1 rest2 =>
      rw [consecPairs, List.map_cons, ih]
      rfl

/-- C10: the output of `compute_asset_returns` is rectangular over assets —
any two assets appearing in the output have identical return-date lists —
and a date appears in the output only if every asset of the table has a
price both on that date and on the immediately preceding date of the table,
so a single asset missing one date removes that date's returns for all
assets. -/
theorem C10_rectangular_dropna (prices : List PriceRow) :
    (∀ a1 a2 : Asset,
      (∃ r ∈ compute_asset_returns prices, r.2.1 = a1) →
      (∃ r ∈ compute_asset_returns prices, r.2.1 = a2) →
      outDates (compute_asset_returns prices) a1
        = outDates (compute_asset_returns prices) a2)
    ∧ (∀ (d : Date) (a : Asset) (v : ℝ),
        (d, a, v) ∈ compute_asset_returns prices →
        ∃ dp, dp < d
          ∧ (∃ r ∈ prices, r.date = dp)
          ∧ (∀ r ∈ prices, ¬(dp < r.date ∧ r.date < d))
          ∧ (∀ a2, (∃ r ∈ prices, r.asset = a2) →
              hasPrice prices dp a2 = true ∧ hasPrice prices d a2 = true)) := by
  constructor
  · rintro a1 a2 ⟨r1, hr1, he1⟩ ⟨r2, hr2, he2⟩
    have h1 : a1 ∈ pivotAssets prices := he1 ▸ out_asset_mem hr1
    have h2 : a2 ∈ pivotAssets prices := he2 ▸ out_asset_mem hr2
    rw [outDates_eq_kept prices h1, outDates_eq_kept prices h2]
  · intro d a v hr
    unfold compute_asset_returns at hr
    obtain ⟨x, hx, heq⟩ := List.mem_map.mp hr
    have hxd : x.1 = d := congrArg Prod.fst heq
    unfold returnRowsQ at hx
    obtain ⟨a2, _, hxa⟩ := List.mem_flatMap.mp hx
    obtain ⟨p, hp, hpx⟩ := List.mem_map.mp hxa
    have hpd : p.2 = d := by rw [← hxd, ← hpx]
    have hpmem : (p.1, p.2) ∈ consecPairs (pivotDates prices) :=
      List.mem_of_mem_filter hp
    have hcond := List.of_mem_filter hp
    rw [List.all_eq_true] at hcond
    obtain ⟨l1, l2, hde⟩ := exists_decomp_of_mem_consecPairs hpmem
    rw [hpd] at hde
    have hpw := pivotDates_pairwise_lt prices
    rw [hde] at hpw
    obtain ⟨hpw1, hpw2, hpw3⟩ := List.pairwise_append.mp hpw
    refine ⟨p.1, ?_, ?_, ?_, ?_⟩
    · exact List.rel_of_pairwise_cons hpw2 (List.mem_cons_self d l2)
    · exact mem_pivotDates.mp (by rw [hde]; simp)
    · rintro r hrp ⟨hlo, hhi⟩
      have hmem : r.date ∈ pivotDates prices := mem_pivotDates.mpr ⟨r, hrp, rfl⟩
      rw [hde] at hmem
      rcases List.mem_append.mp hmem with hin1 | hin2
      · exact absurd hlo (not_lt.mpr (le_of_lt
          (hpw3 r.date hin1 p.1 (List.mem_cons_self p.1 _))))
      · rcases List.mem_cons.mp hin2 with heq1 | hin3
        · exact absurd hlo (heq1 ▸ lt_irrefl _)
        · rcases List.mem_cons.mp hin3 with heq2 | hin4
          · exact absurd hhi (heq2 ▸ lt_irrefl _)
          · have : d < r.date :=
              List.rel_of_pairwise_cons (List.pairwise_cons.mp hpw2).2 hin4
            exact absurd hhi (not_lt.mpr (le_of_lt this))
    · intro a3 ha3
      have := hcond a3 (mem_pivotAssets.mpr ha3)
      rw [Bool.and_eq_true] at this
      rw [← hpd]
      exact this

/-- C10 witness: on the rectangular two-asset table, assets 0 and 1 both
appear in the output and have identical return-date lists. -/
theorem C10_witness :
    outDates (compute_asset_returns exPricesRect) 0
      = outDates (compute_asset_returns exPricesRect) 1 := by
  have h0 : ((2 : Date), (0 : Asset), ((100 : ℚ), (110 : ℚ)))
      ∈ returnRowsQ exPricesRect := by decide
  have h1 : ((2 : Date), (1 : Asset), ((50 : ℚ), (55 : ℚ)))
      ∈ returnRowsQ exPricesRect := by decide
  exact (C10_rectangular_dropna exPricesRect).1 0 1
    ⟨_, List.mem_map.mpr ⟨_, h0, rfl⟩, rfl⟩
    ⟨_, List.mem_map.mpr ⟨_, h1, rfl⟩, rfl⟩

/-- C1 counterexample: asset 0 has three price observations, but because
asset 1 is observed only on date 2, `dropna()` removes every pivot row and
asset 0 yields zero returns instead of the claimed two (= observations
minus one); asset 0's output thus depends on asset 1's dates. -/
theorem C1_counterexample :
    (exPrices1.filter (fun r => r.asset == 0)).length = 3
    ∧ outDates (compute_asset_returns exPrices1) 0 = []
    ∧ (outDates (compute_asset_returns exPrices1) 0).length
        ≠ (exPrices1.filter (fun r => r.asset == 0)).length - 1 := by
  have hempty : returnRowsQ exPrices1 = [] := by decide
  have hout : outDates (compute_asset_returns exPrices1) 0 = [] := by
    rw [outDates_eq, hempty]
    rfl
  refine ⟨by decide, hout, ?_⟩
  rw [hout]
  decide

/-- Under rectangular input every shifted row is NaN-free, so `dropna()`
keeps all consecutive date pairs. -/
lemma keptPairs_rect (prices : List PriceRow)
    (hrect : ∀ a ∈ pivotAssets prices, ∀ d ∈ pivotDates prices,
      hasPrice prices d a = true) :
    keptPairs prices = consecPairs (pivotDates prices) := by
  unfold keptPairs
  apply List.filter_eq_self.mpr
  intro p hp
  obtain ⟨l1, l2, hde⟩ := exists_decomp_of_mem_consecPairs (l := pivotDates prices)
    (x := p.1) (y := p.2) hp
  have hm1 : p.1 ∈ pivotDates prices := by rw [hde]; simp
  have hm2 : p.2 ∈ pivotDates prices := by rw [hde]; simp
  rw [List.all_eq_true]
  intro a ha
  rw [Bool.and_eq_true]
  exact ⟨hrect a ha p.1 hm1, hrect a ha p.2 hm2⟩

/-- A true `hasPrice` cell is backed by a price row. -/
lemma hasPrice_to_row {prices : List PriceRow} {d : Date} {a : Asset}
    (h : hasPrice prices d a = true) :
    ∃ r ∈ prices, r.date = d ∧ r.asset = a := by
  unfold hasPrice priceAt at h
  cases hfind : prices.find? (fun r => r.date == d && r.asset == a) with
  | none => rw [hfind] at h; simp at h
  | some rr =>
    refine ⟨rr, List.mem_of_find?_eq_some hfind, ?_⟩
    have := List.find?_some hfind
    rw [Bool.and_eq_true] at this
    exact ⟨by simpa using this.1, by simpa using this.2⟩

/-- With distinct `(date, asset)` keys, one asset's observation dates are
distinct. -/
lemma filter_dates_nodup {prices : List PriceRow}
    (hnd : (prices.map (fun r => (r.date, r.asset))).Nodup) (a : Asset) :
    ((prices.filter (fun r => r.asset == a)).map (fun r => r.date)).Nodup := by
  induction prices with
  | nil => simp
  | cons r rs ih =>
    rw [List.map_cons, List.nodup_cons] at hnd
    rw [List.filter_cons]
    by_cases hra : r.asset = a
    · rw [if_pos (by simpa using hra)]
      rw [List.map_cons, List.nodup_cons]
      refine ⟨?_, ih hnd.2⟩
      intro hmem
      obtain ⟨r2, hr2, hdate⟩ := List.mem_map.mp hmem
      have hr2a : r2.asset = a := by simpa using List.of_mem_filter hr2
      apply hnd.1
      refine List.mem_map.mpr ⟨r2, List.mem_of_mem_filter hr2, ?_⟩
      rw [hdate, hra, hr2a]
    · rw [if_neg (by simpa using hra)]
      exact ih hnd.2

/-- A date belongs to one asset's date list exactly when that asset is
observed on it. -/
lemma mem_assetDates {prices : List PriceRow} {a : Asset} {d : Date} :
    d ∈ assetDates prices a ↔ ∃ r ∈ prices, r.asset = a ∧ r.date = d := by
  unfold assetDates
  rw [List.mem_insertionSort, List.mem_dedup, List.mem_map]
  constructor
  · rintro ⟨r, hr, hd⟩
    exact ⟨r, List.mem_of_mem_filter hr, by simpa using List.of_mem_filter hr, hd⟩
  · rintro ⟨r, hr, ha, hd⟩
    exact ⟨r, List.mem_filter.mpr ⟨hr, by simpa using ha⟩, hd⟩

/-- Under rectangular input every pivot column's date list is the whole
pivot row index. -/
lemma assetDates_rect (prices : List PriceRow)
    (hrect : ∀ a ∈ pivotAssets prices, ∀ d ∈ pivotDates prices,
      hasPrice prices d a = true)
    {a : Asset} (ha : a ∈ pivotAssets prices) :
    assetDates prices a = pivotDates prices := by
  apply List.eq_of_perm_of_sorted ?_
    (List.sorted_insertionSort _ _) (List.sorted_insertionSort _ _)
  apply List.perm_of_nodup_nodup_toFinset_eq
    (((List.perm_insertionSort _ _).nodup_iff).mpr (List.nodup_dedup _))
    (pivotDates_nodup prices)
  ext d
  rw [List.mem_toFinset, List.mem_toFinset]
  constructor
  · intro hd
    obtain ⟨r, hr, _, hdate⟩ := mem_assetDates.mp hd
    exact mem_pivotDates.mpr ⟨r, hr, hdate⟩
  · intro hd
    obtain ⟨r, hr, hdate, hasset⟩ := hasPrice_to_row (hrect a ha d hd)
    exact mem_assetDates.mpr ⟨r, hr, hasset, hdate⟩

/-- With distinct keys, an asset's date-list length is its row count. -/
lemma assetDates_length {prices : List PriceRow}
    (hnd : (prices.map (fun r => (r.date, r.asset))).Nodup) (a : Asset) :
    (assetDates prices a).length
      = (prices.filter (fun r => r.asset == a)).length := by
  unfold assetDates
  rw [List.length_insertionSort,
    List.dedup_eq_self.mpr (filter_dates_nodup hnd a), List.length_map]

/-- C1 amended: provided every asset is observed on every date of the table
(rectangular input, the situation of the repository's seed data) and the
`(date, asset)` keys are distinct, each asset of the table yields exactly
one return per consecutive pair of its own ascending dates — one fewer than
its price observations — each equal to `ln(price[t] / price[t-1])`.
Without rectangularity this fails: one asset's missing date removes that
date's returns for every asset (see the counterexample). -/
theorem C1_per_asset_returns (prices : List PriceRow)
    (hrect : ∀ a ∈ pivotAssets prices, ∀ d ∈ pivotDates prices,
      hasPrice prices d a = true)
    (hnd : (prices.map (fun r => (r.date, r.asset))).Nodup) :
    ∀ a ∈ pivotAssets prices,
      outDates (compute_asset_returns prices) a = (assetDates prices a).tail
      ∧ (outDates (compute_asset_returns prices) a).length
          = (prices.filter (fun r => r.asset == a)).length - 1
      ∧ ∀ d v, (d, a, v) ∈ compute_asset_returns prices →
          ∃ dp, (dp, d) ∈ consecPairs (assetDates prices a)
            ∧ v = Real.log (((priceAt prices d a).getD 0 : ℝ) /
                  ((priceAt prices dp a).getD 0 : ℝ)) := by
  intro a ha
  have hAD : assetDates prices a = pivotDates prices :=
    assetDates_rect prices hrect ha
  have hkept : keptPairs prices = consecPairs (pivotDates prices) :=
    keptPairs_rect prices hrect
  have hdates : outDates (compute_asset_returns prices) a
      = (assetDates prices a).tail := by
    rw [outDates_eq_kept prices ha, hkept, consecPairs_map_snd, hAD]
  refine ⟨hdates, ?_, ?_⟩
  · rw [hdates, List.length_tail, assetDates_length hnd a]
  · intro d v hr
    unfold compute_asset_returns at hr
    obtain ⟨x, hx, heq⟩ := List.mem_map.mp hr
    have hxa : x.2.1 = a := congrArg (fun t => t.2.1) heq
    have hxd : x.1 = d := congrArg Prod.fst heq
    have hxv : Real.log ((x.2.2.2 : ℝ) / (x.2.2.1 : ℝ)) = v :=
      congrArg (fun t => t.2.2) heq
    have hxf : x ∈ (returnRowsQ prices).filter (fun r => r.2.1 == a) :=
      List.mem_filter.mpr ⟨hx, by simp [hxa]⟩
    rw [returnRowsQ_filter prices ha] at hxf
    obtain ⟨p, hp, hpx⟩ := List.mem_map.mp hxf
    have hpd : p.2 = d := by rw [← hxd, ← hpx]
    have hp2 : p ∈ consecPairs (pivotDates prices) := by rw [← hkept]; exact hp
    refine ⟨p.1, ?_, ?_⟩
    · rw [hAD, ← hpd]
      exact hp2
    · rw [← hxv, ← hpx, hpd]

/-- C1 witness: on the rectangular two-asset table the amended claim holds
for asset 0 — its output dates are the tail of its own date list and it has
one return fewer than its three observations. -/
theorem C1_witness :
    outDates (compute_asset_returns exPricesRect) 0
        = (assetDates exPricesRect 0).tail
    ∧ (outDates (compute_asset_returns exPricesRect) 0).length
        = (exPricesRect.filter (fun r => r.asset == 0)).length - 1 := by
  have h := C1_per_asset_returns exPricesRect (by decide) (by decide) 0 (by decide)
  exact ⟨h.1, h.2.1⟩

end HedgeRisk
